import Mathlib

/-!
Shallow embedding of the congestion-control support layer:

* `media/engine/webrtc_media_engine.cc` — RTP header-extension validation
  (`ValidateRtpExtensions`), filtering (`FilterRtpExtensions`,
  `DiscardRedundantExtensions`) and `GetBitrateConfigForCodec`.
* the acknowledged-bitrate tracker (`AcknowledgedBitrateEstimator`), whose
  implementation file is not part of this tree; it is modelled from the spec
  and checked against the expectations of
  `modules/congestion_controller/goog_cc/acknowledged_bitrate_estimator_unittest.cc`.

C++ `std::vector` values become Lean `List`s, C++ `int` becomes `Int`,
timestamps (milliseconds) become `Int`, data sizes (bytes) become `Nat`.
`std::sort` with the comparator of `FilterRtpExtensions` is embedded as
`List.insertionSort` over the same comparator (the C++ sort is unstable, so
its order among comparator-equivalent elements is unspecified; the embedding
fixes one deterministic realisation).
-/

open scoped List

structure RtpExtension where
  id : Int
  uri : String
  encrypt : Bool
deriving DecidableEq

/-- Modelled from the spec: `webrtc::RtpExtension::kMinId` is declared in
`api/rtp_parameters.h`, which is not part of this tree. -/
def kMinId : Int := 1

/-- Modelled from the spec: `webrtc::RtpExtension::kMaxId` is declared in
`api/rtp_parameters.h`, which is not part of this tree. -/
def kMaxId : Int := 14

/-- Modelled from the spec: the absolute-send-time URI constant
`webrtc::RtpExtension::kAbsSendTimeUri`, declared outside this tree. -/
def kAbsSendTimeUri : String :=
  "http://www.webrtc.org/experiments/rtp-hdrext/abs-send-time"

/-- Modelled from the spec: the timestamp-offset URI constant
`webrtc::RtpExtension::kTimestampOffsetUri`, declared outside this tree. -/
def kTimestampOffsetUri : String :=
  "urn:ietf:params:rtp-hdrext:toffset"

/-- Modelled from the spec: the transport-sequence-number URI constant
`webrtc::RtpExtension::kTransportSequenceNumberUri`, declared outside this
tree. -/
def kTransportSequenceNumberUri : String :=
  "http://www.ietf.org/id/draft-holmer-rmcat-transport-wide-cc-extensions-01"

/-- The loop of `ValidateRtpExtensions`, with the `id_used` bitset replaced by
the list of ids marked so far. -/
def validateAux : List Int → List RtpExtension → Bool
  | _, [] => true
  | used, e :: rest =>
    if e.id < kMinId ∨ kMaxId < e.id then false
    else if e.id ∈ used then false
    else validateAux (e.id :: used) rest

/-- `cricket::ValidateRtpExtensions` from `media/engine/webrtc_media_engine.cc`. -/
def ValidateRtpExtensions (extensions : List RtpExtension) : Bool :=
  validateAux [] extensions

/-- Lexicographic comparison of character lists by code point: the embedding of
`std::string::operator<` (byte-wise lexicographic compare; identical to
code-point order on the ASCII URIs involved). -/
def strLt : List Char → List Char → Bool
  | [], [] => false
  | [], _ :: _ => true
  | _ :: _, [] => false
  | a :: as, b :: bs =>
    if a.toNat < b.toNat then true
    else if b.toNat < a.toNat then false
    else strLt as bs

/-- The strict comparator passed to `absl::c_sort` in `FilterRtpExtensions`:
`rhs.encrypt == lhs.encrypt ? rhs.uri < lhs.uri : rhs.encrypt > lhs.encrypt`
(for C++ `bool`, `>` means `true > false`). -/
def extCompLt (a b : RtpExtension) : Prop :=
  if a.encrypt = b.encrypt then strLt a.uri.data b.uri.data = true
  else b.encrypt = false ∧ a.encrypt = true

instance : DecidableRel extCompLt := fun a b => by
  unfold extCompLt; infer_instance

/-- The non-strict order induced by `extCompLt`; a list is in the order
produced by `std::sort` with `extCompLt` exactly when it is sorted by
`extLe`. -/
def extLe (a b : RtpExtension) : Prop := ¬ extCompLt b a

instance : DecidableRel extLe := fun a b => by
  unfold extLe; infer_instance

/-- The equivalence used by `std::unique` in `FilterRtpExtensions`:
`rhs.uri == lhs.uri && rhs.encrypt == lhs.encrypt`. -/
def extEqualKey (a b : RtpExtension) : Prop :=
  a.uri = b.uri ∧ a.encrypt = b.encrypt

instance : DecidableRel extEqualKey := fun a b => by
  unfold extEqualKey; infer_instance

/-- Tail of the `std::unique` pass: `a` is the last element kept, the argument
list is what remains to scan. -/
def uniqAux (a : RtpExtension) : List RtpExtension → List RtpExtension
  | [] => []
  | b :: rest => if extEqualKey a b then uniqAux a rest else b :: uniqAux b rest

/-- `std::unique` (followed by `erase` of the tail) over `extEqualKey`:
collapses each run of consecutive equivalent elements to its first element. -/
def uniq : List RtpExtension → List RtpExtension
  | [] => []
  | a :: rest => a :: uniqAux a rest

/-- `extensions->erase(it)` where `it = absl::c_find_if(*extensions, uri match)`:
removes the first element carrying `uri`, if any. -/
def eraseFirstUri (uri : String) : List RtpExtension → List RtpExtension
  | [] => []
  | e :: rest => if e.uri = uri then rest else e :: eraseFirstUri uri rest

/-- One iteration of the loop of `DiscardRedundantExtensions`: the state is the
current extension list together with the `found` flag. -/
def discardStep (st : List RtpExtension × Bool) (uri : String) :
    List RtpExtension × Bool :=
  match st with
  | (exts, found) =>
    if exts.any (fun e => e.uri = uri) then
      if found then (eraseFirstUri uri exts, true) else (exts, true)
    else (exts, found)

/-- `DiscardRedundantExtensions` from `media/engine/webrtc_media_engine.cc`:
scan the priority URIs in decreasing priority; keep the first one found and
erase the (first) occurrence of every later one. -/
def DiscardRedundantExtensions (prios : List String)
    (extensions : List RtpExtension) : List RtpExtension :=
  (prios.foldl discardStep (extensions, false)).1

/-- The `kBweExtensionPriorities` array chosen by
`IsKeepAbsSendTimeExtensionFieldTrialEnabled()`: `true` selects the two-element
list, `false` the three-element list. -/
def bwePriorities (keepAbsSendTime : Bool) : List String :=
  if keepAbsSendTime then [kAbsSendTimeUri, kTimestampOffsetUri]
  else [kTransportSequenceNumberUri, kAbsSendTimeUri, kTimestampOffsetUri]

/-- `cricket::FilterRtpExtensions` from `media/engine/webrtc_media_engine.cc`.
The process-wide field trial `WebRTC-KeepAbsSendTimeExtension` is passed
explicitly as `keepAbsSendTime`. -/
def FilterRtpExtensions (keepAbsSendTime : Bool)
    (extensions : List RtpExtension) (supported : String → Bool)
    (filter_redundant : Bool) : List RtpExtension :=
  if filter_redundant then
    DiscardRedundantExtensions (bwePriorities keepAbsSendTime)
      (uniq (List.insertionSort extLe
        (extensions.filter (fun e => supported e.uri))))
  else
    List.insertionSort extLe (extensions.filter (fun e => supported e.uri))

/-- Modelled from the spec: `cricket::kCodecParamMinBitrate`, declared in
`media/base/media_constants.h` outside this tree. -/
def kCodecParamMinBitrate : String := "x-google-min-bitrate"

/-- Modelled from the spec: `cricket::kCodecParamStartBitrate`, declared in
`media/base/media_constants.h` outside this tree. -/
def kCodecParamStartBitrate : String := "x-google-start-bitrate"

/-- Modelled from the spec: `cricket::kCodecParamMaxBitrate`, declared in
`media/base/media_constants.h` outside this tree. -/
def kCodecParamMaxBitrate : String := "x-google-max-bitrate"

/-- Modelled from the spec: a codec with its integer-valued parameter map;
`cricket::Codec` lives in `media/base/codec.h` outside this tree. -/
structure Codec where
  params : List (String × Int)
deriving DecidableEq

/-- Modelled from the spec: `Codec::GetParam(name, int* out)` — look the key up
in the parameter map; `some` exactly when the C++ call returns `true`. -/
def Codec.GetParam (c : Codec) (key : String) : Option Int :=
  (c.params.find? (fun p => p.1 == key)).map (fun p => p.2)

structure BitrateConstraints where
  min_bitrate_bps : Int
  start_bitrate_bps : Int
  max_bitrate_bps : Int
deriving DecidableEq

/-- `cricket::GetBitrateConfigForCodec` from
`media/engine/webrtc_media_engine.cc`. -/
def GetBitrateConfigForCodec (codec : Codec) : BitrateConstraints :=
  { min_bitrate_bps :=
      match codec.GetParam kCodecParamMinBitrate with
      | some k => if 0 < k then k * 1000 else 0
      | none => 0
    start_bitrate_bps :=
      match codec.GetParam kCodecParamStartBitrate with
      | some k => if 0 < k then k * 1000 else -1
      | none => -1
    max_bitrate_bps :=
      match codec.GetParam kCodecParamMaxBitrate with
      | some k => if 0 < k then k * 1000 else -1
      | none => -1 }

/-- Modelled from the spec: one acknowledged-packet feedback record
(`webrtc::PacketResult`), with the externally computed `in_alr` flag carried
alongside. Times are milliseconds, sizes bytes. -/
structure PacketResult where
  receive_time : Int
  payload_size : Nat
  in_alr : Bool
deriving DecidableEq

/-- Modelled from the spec: the calls the tracker makes on its owned
single-packet bitrate estimator, recorded as a trace. -/
inductive EstimatorCall where
  | update (at_time : Int) (data_size : Nat) (in_alr : Bool)
  | expectFastRateChange
deriving DecidableEq

/-- Modelled from the spec: the state of `webrtc::AcknowledgedBitrateEstimator`
(the implementation file is not part of this tree; only its unit test is) —
the optional armed ALR-ended marker. -/
structure AcknowledgedBitrateEstimator where
  alr_ended_time : Option Int
deriving DecidableEq

/-- Modelled from the spec: `SetAlrEndedTime(t)` unconditionally overwrites the
stored marker, arming the one-shot trigger. -/
def SetAlrEndedTime (t : Int) (_est : AcknowledgedBitrateEstimator) :
    AcknowledgedBitrateEstimator :=
  { alr_ended_time := some t }

/-- Modelled from the spec: processing of one feedback record — if a marker is
armed and `receive_time ≥ alr_ended_time`, emit `ExpectFastRateChange` and
clear the marker, then always emit `Update` with the record's fields. -/
def processPacket (st : AcknowledgedBitrateEstimator) (p : PacketResult) :
    AcknowledgedBitrateEstimator × List EstimatorCall :=
  match st.alr_ended_time with
  | some t =>
      if t ≤ p.receive_time then
        (⟨none⟩, [EstimatorCall.expectFastRateChange,
                  EstimatorCall.update p.receive_time p.payload_size p.in_alr])
      else
        (st, [EstimatorCall.update p.receive_time p.payload_size p.in_alr])
  | none => (st, [EstimatorCall.update p.receive_time p.payload_size p.in_alr])

/-- Modelled from the spec: `IncomingPacketFeedbackVector` processes the batch
in the order supplied, returning the final state and the trace of estimator
calls. -/
def IncomingPacketFeedbackVector (st : AcknowledgedBitrateEstimator) :
    List PacketResult → AcknowledgedBitrateEstimator × List EstimatorCall
  | [] => (st, [])
  | p :: rest =>
    ((IncomingPacketFeedbackVector (processPacket st p).1 rest).1,
     (processPacket st p).2 ++
       (IncomingPacketFeedbackVector (processPacket st p).1 rest).2)

/-! ### Order-theoretic facts about the sort comparator -/

theorem charEq_of_toNat_eq {a b : Char} (h : a.toNat = b.toNat) : a = b :=
  Char.eq_of_val_eq (UInt32.toNat.inj h)

theorem string_eq_of_data_eq {s t : String} (h : s.data = t.data) : s = t := by
  cases s; exact congrArg String.mk h

theorem strLt_irrefl : ∀ l, strLt l l = false
  | [] => rfl
  | a :: as => by simp [strLt, strLt_irrefl as]

theorem strLt_asymm : ∀ l₁ l₂, strLt l₁ l₂ = true → strLt l₂ l₁ = false
  | [], [], h => by simp [strLt] at h
  | [], _ :: _, _ => rfl
  | _ :: _, [], h => by simp [strLt] at h
  | a :: as, b :: bs, h => by
    simp only [strLt] at h ⊢
    split_ifs at h ⊢ <;> first | rfl | omega | exact strLt_asymm as bs h

theorem strLt_trans : ∀ l₁ l₂ l₃, strLt l₁ l₂ = true → strLt l₂ l₃ = true →
    strLt l₁ l₃ = true
  | [], _, _ :: _, _, _ => rfl
  | [], [], [], h, _ => by simp [strLt] at h
  | [], _ :: _, [], _, h => by simp [strLt] at h
  | _ :: _, [], _, h, _ => by simp [strLt] at h
  | _ :: _, _ :: _, [], _, h => by simp [strLt] at h
  | a :: as, b :: bs, c :: cs, h₁, h₂ => by
    simp only [strLt] at h₁ h₂ ⊢
    split_ifs at h₁ h₂ ⊢ <;>
      first | rfl | omega | exact strLt_trans as bs cs h₁ h₂

theorem strLt_conn : ∀ l₁ l₂, strLt l₁ l₂ = false → strLt l₂ l₁ = false → l₁ = l₂
  | [], [], _, _ => rfl
  | [], _ :: _, h, _ => by simp [strLt] at h
  | _ :: _, [], _, h => by simp [strLt] at h
  | a :: as, b :: bs, h₁, h₂ => by
    simp only [strLt] at h₁ h₂
    by_cases hab : a.toNat < b.toNat
    · simp [hab] at h₁
    · by_cases hba : b.toNat < a.toNat
      · simp [hba] at h₂
      · simp only [hab, hba, if_false] at h₁ h₂
        have hc : a = b := charEq_of_toNat_eq (by omega)
        rw [hc, strLt_conn as bs h₁ h₂]

theorem extCompLt_asymm {a b : RtpExtension} (h : extCompLt a b) :
    ¬ extCompLt b a := by
  unfold extCompLt at h ⊢
  by_cases he : a.encrypt = b.encrypt
  · rw [if_pos he] at h
    rw [if_pos he.symm]
    intro hba
    rw [strLt_asymm _ _ h] at hba
    cases hba
  · rw [if_neg he] at h
    rw [if_neg (fun hh => he hh.symm)]
    rintro ⟨h1, _⟩
    rw [h.2] at h1
    cases h1

theorem extCompLt_trans {a b c : RtpExtension}
    (h₁ : extCompLt a b) (h₂ : extCompLt b c) : extCompLt a c := by
  unfold extCompLt at h₁ h₂ ⊢
  by_cases hab : a.encrypt = b.encrypt
  · rw [if_pos hab] at h₁
    by_cases hbc : b.encrypt = c.encrypt
    · rw [if_pos hbc] at h₂
      rw [if_pos (hab.trans hbc)]
      exact strLt_trans _ _ _ h₁ h₂
    · rw [if_neg hbc] at h₂
      rw [if_neg (fun hh => hbc (hab.symm.trans hh))]
      exact ⟨h₂.1, hab.trans h₂.2⟩
  · rw [if_neg hab] at h₁
    by_cases hbc : b.encrypt = c.encrypt
    · rw [if_neg (fun hh => hab (hh.trans hbc.symm))]
      exact ⟨hbc.symm.trans h₁.1, h₁.2⟩
    · rw [if_neg hbc] at h₂
      rw [h₁.1] at h₂
      cases h₂.2

theorem extCompLt_conn {a b : RtpExtension}
    (h₁ : ¬ extCompLt a b) (h₂ : ¬ extCompLt b a) : extEqualKey a b := by
  unfold extCompLt at h₁ h₂
  by_cases he : a.encrypt = b.encrypt
  · rw [if_pos he] at h₁
    rw [if_pos he.symm] at h₂
    refine ⟨string_eq_of_data_eq (strLt_conn _ _ ?_ ?_), he⟩
    · exact Bool.not_eq_true _ |>.mp h₁
    · exact Bool.not_eq_true _ |>.mp h₂
  · rw [if_neg he] at h₁
    rw [if_neg (fun hh => he hh.symm)] at h₂
    cases ha : a.encrypt <;> cases hb : b.encrypt
    · exact absurd (ha.trans hb.symm) he
    · exact absurd ⟨ha, hb⟩ h₂
    · exact absurd ⟨hb, ha⟩ h₁
    · exact absurd (ha.trans hb.symm) he

theorem extCompLt_congr {a a2 b b2 : RtpExtension}
    (ha : extEqualKey a a2) (hb : extEqualKey b b2) :
    extCompLt a b ↔ extCompLt a2 b2 := by
  unfold extCompLt
  rw [ha.1, ha.2, hb.1, hb.2]

theorem extEqualKey_refl (a : RtpExtension) : extEqualKey a a := ⟨rfl, rfl⟩

theorem extEqualKey_symm {a b : RtpExtension} (h : extEqualKey a b) :
    extEqualKey b a := ⟨h.1.symm, h.2.symm⟩

theorem extLe_trans : ∀ a b c : RtpExtension, extLe a b → extLe b c → extLe a c := by
  intro a b c hab hbc hca
  by_cases hcb : extCompLt c b
  · exact hbc hcb
  · by_cases hbc2 : extCompLt b c
    · exact hab (extCompLt_trans hbc2 hca)
    · exact hab ((extCompLt_congr (extEqualKey_symm (extCompLt_conn hcb hbc2))
        (extEqualKey_refl a)).mpr hca)

theorem extLe_total : ∀ a b : RtpExtension, extLe a b ∨ extLe b a := by
  intro a b
  by_cases h : extCompLt b a
  · exact Or.inr (extCompLt_asymm h)
  · exact Or.inl h

instance : IsTrans RtpExtension extLe := ⟨extLe_trans⟩

instance : IsTotal RtpExtension extLe := ⟨extLe_total⟩

theorem extEqualKey_of_le_of_le {a b : RtpExtension}
    (h₁ : extLe a b) (h₂ : extLe b a) : extEqualKey a b :=
  extCompLt_conn h₂ h₁

theorem extEqualKey_between {a b c : RtpExtension}
    (hab : extLe a b) (hbc : extLe b c) (hac : extEqualKey a c) :
    extEqualKey a b := by
  by_cases h : extCompLt a b
  · exact absurd ((extCompLt_congr hac (extEqualKey_refl b)).mp h) hbc
  · exact extCompLt_conn h hab

/-! ### Structural facts about the filtering pipeline -/

theorem uniqAux_sublist : ∀ (t : List RtpExtension) (a : RtpExtension),
    uniqAux a t <+ t
  | [], _ => List.Sublist.refl _
  | b :: rest, a => by
    simp only [uniqAux]
    split_ifs
    · exact (uniqAux_sublist rest a).trans (List.sublist_cons_self b rest)
    · exact (uniqAux_sublist rest b).cons₂ b

theorem uniq_sublist : ∀ l : List RtpExtension, uniq l <+ l
  | [] => List.Sublist.refl _
  | a :: rest => (uniqAux_sublist rest a).cons₂ a

theorem eraseFirstUri_sublist : ∀ (u : String) (l : List RtpExtension),
    eraseFirstUri u l <+ l
  | _, [] => List.Sublist.refl _
  | u, e :: rest => by
    simp only [eraseFirstUri]
    split_ifs
    · exact List.sublist_cons_self e rest
    · exact (eraseFirstUri_sublist u rest).cons₂ e

theorem discardStep_sublist (st : List RtpExtension × Bool) (u : String) :
    (discardStep st u).1 <+ st.1 := by
  obtain ⟨l, b⟩ := st
  simp only [discardStep]
  split_ifs <;>
    first | exact eraseFirstUri_sublist u l | exact List.Sublist.refl _

theorem discard_foldl_sublist : ∀ (prios : List String)
    (st : List RtpExtension × Bool),
    (prios.foldl discardStep st).1 <+ st.1
  | [], _ => List.Sublist.refl _
  | u :: us, st => by
    simp only [List.foldl_cons]
    exact (discard_foldl_sublist us (discardStep st u)).trans
      (discardStep_sublist st u)

theorem DiscardRedundantExtensions_sublist (prios : List String)
    (l : List RtpExtension) : DiscardRedundantExtensions prios l <+ l :=
  discard_foldl_sublist prios (l, false)

theorem FilterRtpExtensions_sublist_sorted (keepAbsSendTime : Bool)
    (l : List RtpExtension) (supported : String → Bool) (fr : Bool) :
    FilterRtpExtensions keepAbsSendTime l supported fr <+
      List.insertionSort extLe (l.filter (fun e => supported e.uri)) := by
  unfold FilterRtpExtensions
  split_ifs
  · exact (DiscardRedundantExtensions_sublist _ _).trans (uniq_sublist _)
  · exact List.Sublist.refl _

theorem FilterRtpExtensions_sorted (keepAbsSendTime : Bool)
    (l : List RtpExtension) (supported : String → Bool) (fr : Bool) :
    List.Sorted extLe (FilterRtpExtensions keepAbsSendTime l supported fr) :=
  List.Pairwise.sublist (FilterRtpExtensions_sublist_sorted _ _ _ _)
    (List.sorted_insertionSort extLe _)

theorem uniqAux_pairwise_and_ne : ∀ (t : List RtpExtension) (a : RtpExtension),
    List.Sorted extLe (a :: t) →
    ((uniqAux a t).Pairwise (fun x y => ¬ extEqualKey x y) ∧
      ∀ b ∈ uniqAux a t, ¬ extEqualKey a b)
  | [], a, _ => ⟨List.Pairwise.nil, by simp [uniqAux]⟩
  | b :: rest, a, h => by
    rw [List.sorted_cons] at h
    obtain ⟨ha, hrest⟩ := h
    by_cases hk : extEqualKey a b
    · simp only [uniqAux, if_pos hk]
      exact uniqAux_pairwise_and_ne rest a
        (List.sorted_cons.mpr
          ⟨fun x hx => ha x (List.mem_cons_of_mem b hx),
           (List.sorted_cons.mp hrest).2⟩)
    · simp only [uniqAux, if_neg hk]
      have ih := uniqAux_pairwise_and_ne rest b hrest
      refine ⟨List.Pairwise.cons (fun y hy => ih.2 y hy) ih.1, ?_⟩
      intro c hc
      rcases List.mem_cons.mp hc with hcb | hcu
      · rw [hcb]; exact hk
      · intro hac
        have hcrest : c ∈ rest := (uniqAux_sublist rest b).subset hcu
        have hab : extLe a b := ha b (List.mem_cons_self b rest)
        have hbc : extLe b c := List.rel_of_sorted_cons hrest c hcrest
        exact hk (extEqualKey_between hab hbc hac)

theorem uniqAux_eq_self : ∀ (t : List RtpExtension) (a : RtpExtension),
    (∀ b ∈ t, ¬ extEqualKey a b) →
    t.Pairwise (fun x y => ¬ extEqualKey x y) →
    uniqAux a t = t
  | [], _, _, _ => rfl
  | b :: rest, a, hne, hp => by
    rw [List.pairwise_cons] at hp
    simp only [uniqAux, if_neg (hne b (List.mem_cons_self b rest))]
    rw [uniqAux_eq_self rest b hp.1 hp.2]

theorem uniq_eq_self (l : List RtpExtension)
    (h : l.Pairwise (fun x y => ¬ extEqualKey x y)) : uniq l = l := by
  cases l with
  | nil => rfl
  | cons a t =>
    rw [List.pairwise_cons] at h
    simp only [uniq]
    rw [uniqAux_eq_self t a h.1 h.2]

theorem uniq_pairwise_of_sorted (l : List RtpExtension)
    (h : List.Sorted extLe l) :
    (uniq l).Pairwise (fun x y => ¬ extEqualKey x y) := by
  cases l with
  | nil => exact List.Pairwise.nil
  | cons a t =>
    have hu := uniqAux_pairwise_and_ne t a h
    exact List.Pairwise.cons (fun y hy => hu.2 y hy) hu.1

/-! ### Counting occurrences of URIs -/

/-- Number of entries of `l` carrying exactly the URI `u`. -/
def uriCount (u : String) (l : List RtpExtension) : Nat :=
  l.countP (fun e => decide (e.uri = u))

/-- Number of entries of `l` whose URI belongs to the priority group `prios`. -/
def groupCount (prios : List String) (l : List RtpExtension) : Nat :=
  l.countP (fun e => decide (e.uri ∈ prios))

theorem uriCount_le_of_sublist {l₁ l₂ : List RtpExtension} (h : l₁ <+ l₂)
    (u : String) : uriCount u l₁ ≤ uriCount u l₂ :=
  h.countP_le _

theorem groupCount_le_of_sublist {l₁ l₂ : List RtpExtension} (h : l₁ <+ l₂)
    (prios : List String) : groupCount prios l₁ ≤ groupCount prios l₂ :=
  h.countP_le _

theorem uriCount_eq_zero_of_any_eq_false {u : String} {l : List RtpExtension}
    (h : l.any (fun e => e.uri = u) = false) : uriCount u l = 0 := by
  rw [uriCount, List.countP_eq_zero]
  intro e he
  rw [List.any_eq_false] at h
  exact h e he

theorem uriCount_pos_of_any_eq_true {u : String} {l : List RtpExtension}
    (h : l.any (fun e => e.uri = u) = true) : 1 ≤ uriCount u l := by
  rw [List.any_eq_true] at h
  obtain ⟨e, he, hp⟩ := h
  exact List.countP_pos_iff.mpr ⟨e, he, hp⟩

theorem uriCount_erase_self : ∀ {l : List RtpExtension} {u : String},
    l.any (fun e => e.uri = u) = true →
    uriCount u (eraseFirstUri u l) + 1 = uriCount u l := by
  intro l
  induction l with
  | nil => intro u h; cases h
  | cons e rest ih =>
    intro u h
    by_cases hu : e.uri = u
    · simp only [eraseFirstUri, if_pos hu, uriCount]
      rw [List.countP_cons_of_pos]
      simp [hu]
    · have hr : rest.any (fun e => e.uri = u) = true := by
        rcases List.any_eq_true.mp h with ⟨x, hx, hp⟩
        rcases List.mem_cons.mp hx with hex | hxr
        · exact absurd (of_decide_eq_true (hex ▸ hp)) hu
        · exact List.any_eq_true.mpr ⟨x, hxr, hp⟩
      simp only [eraseFirstUri, if_neg hu, uniq, uriCount]
      rw [List.countP_cons_of_neg, List.countP_cons_of_neg]
      · exact ih hr
      · simp [hu]
      · simp [hu]

theorem countP_or_le {α : Type} (p q : α → Bool) :
    ∀ l : List α, l.countP (fun x => p x || q x) ≤ l.countP p + l.countP q
  | [] => by simp
  | x :: l => by
    have ih := countP_or_le p q l
    by_cases hp : p x = true <;> by_cases hq : q x = true <;>
      simp [List.countP_cons, hp, hq] <;> omega

theorem countP_add_countP_le_of_disjoint {α : Type} (p q r : α → Bool)
    (hp : ∀ x, p x = true → r x = true) (hq : ∀ x, q x = true → r x = true)
    (hpq : ∀ x, ¬(p x = true ∧ q x = true)) :
    ∀ l : List α, l.countP p + l.countP q ≤ l.countP r
  | [] => by simp
  | x :: l => by
    have ih := countP_add_countP_le_of_disjoint p q r hp hq hpq l
    simp only [List.countP_cons]
    by_cases hpx : p x = true
    · have hrx := hp x hpx
      have hqx : ¬ q x = true := fun hq2 => hpq x ⟨hpx, hq2⟩
      simp [hpx, hqx, hrx]
      omega
    · by_cases hqx : q x = true
      · have hrx := hq x hqx
        simp [hpx, hqx, hrx]
        omega
      · simp [hpx, hqx]
        by_cases hrx : r x = true <;> simp [hrx] <;> omega

theorem groupCount_cons_le (u0 : String) (us : List String)
    (l : List RtpExtension) :
    groupCount (u0 :: us) l ≤ uriCount u0 l + groupCount us l := by
  have hc : groupCount (u0 :: us) l =
      l.countP (fun e => decide (e.uri = u0) || decide (e.uri ∈ us)) := by
    apply List.countP_congr
    intro e _
    simp [List.mem_cons]
  rw [hc, uriCount, groupCount]
  exact countP_or_le _ _ l

theorem groupCount_eq_zero {prios : List String} {l : List RtpExtension}
    (h : ∀ u ∈ prios, uriCount u l = 0) : groupCount prios l = 0 := by
  rw [groupCount, List.countP_eq_zero]
  intro e he
  simp only [decide_eq_true_eq]
  intro hmem
  have h1 : 1 ≤ uriCount e.uri l :=
    List.countP_pos_iff.mpr ⟨e, he, by simp⟩
  rw [h e.uri hmem] at h1
  omega

theorem groupCount_mono_prios {us : List String} {u0 : String}
    (l : List RtpExtension) : groupCount us l ≤ groupCount (u0 :: us) l :=
  List.countP_mono_left (fun e _ => by
    simp only [decide_eq_true_eq]
    exact fun h => List.mem_cons_of_mem u0 h)

theorem uriCount_add_le_groupCount {u0 u : String} {prios : List String}
    (h0 : u0 ∈ prios) (hu : u ∈ prios) (hne : u0 ≠ u) (l : List RtpExtension) :
    uriCount u0 l + uriCount u l ≤ groupCount prios l := by
  refine countP_add_countP_le_of_disjoint _ _ _ ?_ ?_ ?_ l
  · intro e he
    simp only [decide_eq_true_eq] at he ⊢
    rw [he]; exact h0
  · intro e he
    simp only [decide_eq_true_eq] at he ⊢
    rw [he]; exact hu
  · rintro e ⟨he0, heu⟩
    simp only [decide_eq_true_eq] at he0 heu
    exact hne (he0.symm.trans heu)

/-! ### Behaviour of the redundancy-discard scan -/

theorem discardStep_true_eq (l : List RtpExtension) (u : String) :
    discardStep (l, true) u =
      (if l.any (fun e => e.uri = u) then eraseFirstUri u l else l, true) := by
  by_cases h : l.any (fun e => e.uri = u) = true
  · simp [discardStep, h]
  · simp [discardStep, h]

theorem discard_fold_true_uriCount_zero :
    ∀ (prios : List String) (l : List RtpExtension),
    (∀ u ∈ prios, uriCount u l ≤ 1) →
    ∀ u ∈ prios, uriCount u (prios.foldl discardStep (l, true)).1 = 0
  | [], _, _, u, hu => absurd hu (List.not_mem_nil u)
  | u0 :: us, l, hc, u, hu => by
    rw [List.foldl_cons, discardStep_true_eq]
    have hsub : (if l.any (fun e => e.uri = u0) then eraseFirstUri u0 l else l)
        <+ l := by
      split_ifs
      · exact eraseFirstUri_sublist u0 l
      · exact List.Sublist.refl l
    have hzero :
        uriCount u0 (if l.any (fun e => e.uri = u0) then eraseFirstUri u0 l
          else l) = 0 := by
      by_cases ha : l.any (fun e => e.uri = u0) = true
      · rw [if_pos ha]
        have h1 := uriCount_erase_self (l := l) (u := u0) ha
        have h2 := hc u0 (List.mem_cons_self u0 us)
        omega
      · rw [if_neg ha]
        exact uriCount_eq_zero_of_any_eq_false (by simpa using ha)
    rcases List.mem_cons.mp hu with h0 | hus2
    · have hle : uriCount u
          ((us.foldl discardStep
            (if l.any (fun e => e.uri = u0) then eraseFirstUri u0 l else l,
              true)).1) ≤
          uriCount u
            (if l.any (fun e => e.uri = u0) then eraseFirstUri u0 l else l) :=
        uriCount_le_of_sublist (discard_foldl_sublist us _) u
      rw [h0] at hle ⊢
      omega
    · exact discard_fold_true_uriCount_zero us _
        (fun v hv => le_trans (uriCount_le_of_sublist hsub v)
          (hc v (List.mem_cons_of_mem u0 hv))) u hus2

theorem discard_fold_false_groupCount_le_one :
    ∀ (prios : List String) (l : List RtpExtension),
    (∀ u ∈ prios, uriCount u l ≤ 1) →
    groupCount prios (prios.foldl discardStep (l, false)).1 ≤ 1
  | [], l, _ => by
    have : groupCount [] l = 0 := by
      rw [groupCount, List.countP_eq_zero]
      simp
    simpa [List.foldl_nil] using le_trans (le_of_eq this) (Nat.zero_le 1)
  | u0 :: us, l, hc => by
    rw [List.foldl_cons]
    by_cases ha : l.any (fun e => e.uri = u0) = true
    · have hstep : discardStep (l, false) u0 = (l, true) := by
        simp [discardStep, ha]
      rw [hstep]
      have hzeros : ∀ u ∈ us, uriCount u (us.foldl discardStep (l, true)).1 = 0 :=
        discard_fold_true_uriCount_zero us l
          (fun v hv => hc v (List.mem_cons_of_mem u0 hv))
      have hg0 : groupCount us (us.foldl discardStep (l, true)).1 = 0 :=
        groupCount_eq_zero hzeros
      have hu0 : uriCount u0 (us.foldl discardStep (l, true)).1 ≤ 1 :=
        le_trans (uriCount_le_of_sublist
          (discard_foldl_sublist us (l, true)) u0)
          (hc u0 (List.mem_cons_self u0 us))
      have hcons := groupCount_cons_le u0 us (us.foldl discardStep (l, true)).1
      omega
    · have hstep : discardStep (l, false) u0 = (l, false) := by
        simp [discardStep, ha]
      rw [hstep]
      have hrec := discard_fold_false_groupCount_le_one us l
        (fun v hv => hc v (List.mem_cons_of_mem u0 hv))
      have hcons := groupCount_cons_le u0 us (us.foldl discardStep (l, false)).1
      have h0 : uriCount u0 l = 0 :=
        uriCount_eq_zero_of_any_eq_false (by simpa using ha)
      have hle : uriCount u0 ((us.foldl discardStep (l, false)).1) ≤
          uriCount u0 l :=
        uriCount_le_of_sublist (discard_foldl_sublist us (l, false)) u0
      omega

theorem discard_fold_noop : ∀ (prios : List String) (l : List RtpExtension)
    (b : Bool),
    (∀ u ∈ prios, l.any (fun e => e.uri = u) = false) →
    prios.foldl discardStep (l, b) = (l, b)
  | [], _, _, _ => rfl
  | u0 :: us, l, b, h => by
    rw [List.foldl_cons]
    have hstep : discardStep (l, b) u0 = (l, b) := by
      simp [discardStep, h u0 (List.mem_cons_self u0 us)]
    rw [hstep]
    exact discard_fold_noop us l b (fun v hv => h v (List.mem_cons_of_mem u0 hv))

theorem discard_fold_fix : ∀ (prios : List String) (l : List RtpExtension),
    prios.Nodup → groupCount prios l ≤ 1 →
    (prios.foldl discardStep (l, false)).1 = l
  | [], _, _, _ => rfl
  | u0 :: us, l, hnd, hg => by
    rw [List.foldl_cons]
    rw [List.nodup_cons] at hnd
    by_cases ha : l.any (fun e => e.uri = u0) = true
    · have hstep : discardStep (l, false) u0 = (l, true) := by
        simp [discardStep, ha]
      rw [hstep]
      have hnone : ∀ u ∈ us, l.any (fun e => e.uri = u) = false := by
        intro u hu
        rcases Bool.eq_false_or_eq_true (l.any (fun e => e.uri = u)) with hb | hb
        · exfalso
          have h1 := uriCount_pos_of_any_eq_true ha
          have h2 := uriCount_pos_of_any_eq_true hb
          have hne : u0 ≠ u := fun he => hnd.1 (he ▸ hu)
          have := uriCount_add_le_groupCount (List.mem_cons_self u0 us)
            (List.mem_cons_of_mem u0 hu) hne l
          omega
        · exact hb
      exact congrArg Prod.fst (discard_fold_noop us l true hnone)
    · have hstep : discardStep (l, false) u0 = (l, false) := by
        simp [discardStep, ha]
      rw [hstep]
      exact discard_fold_fix us l hnd.2 (le_trans (groupCount_mono_prios l) hg)

/-! ### Sorted permutations with distinct keys, validation, tracker traces -/

theorem sorted_perm_eq_of_pairwise_keys :
    ∀ (l₁ l₂ : List RtpExtension),
    l₁.Perm l₂ → List.Sorted extLe l₁ → List.Sorted extLe l₂ →
    l₁.Pairwise (fun x y => ¬ extEqualKey x y) → l₁ = l₂
  | [], l₂, hp, _, _, _ => hp.nil_eq
  | a :: t₁, l₂, hp, hs₁, hs₂, hk => by
    cases l₂ with
    | nil =>
      have := hp.length_eq
      simp at this
    | cons b t₂ =>
      have hab : a = b := by
        have hainl2 : a ∈ b :: t₂ := hp.mem_iff.mp (List.mem_cons_self a t₁)
        have hbinl1 : b ∈ a :: t₁ := hp.mem_iff.mpr (List.mem_cons_self b t₂)
        rcases List.mem_cons.mp hainl2 with h1 | h1
        · exact h1
        rcases List.mem_cons.mp hbinl1 with h2 | h2
        · exact h2.symm
        have hle1 : extLe a b := List.rel_of_sorted_cons hs₁ b h2
        have hle2 : extLe b a := List.rel_of_sorted_cons hs₂ a h1
        have hkey : extEqualKey a b := extEqualKey_of_le_of_le hle1 hle2
        exact absurd hkey ((List.pairwise_cons.mp hk).1 b h2)
      subst hab
      have ht : t₁.Perm t₂ := hp.cons_inv
      rw [sorted_perm_eq_of_pairwise_keys t₁ t₂ ht hs₁.of_cons hs₂.of_cons
        (List.pairwise_cons.mp hk).2]

theorem validateAux_eq_true_iff : ∀ (l : List RtpExtension) (used : List Int),
    validateAux used l = true ↔
      ((∀ e ∈ l, kMinId ≤ e.id ∧ e.id ≤ kMaxId) ∧
       (l.map (fun e => e.id)).Nodup ∧
       ∀ e ∈ l, e.id ∉ used)
  | [], used => by simp [validateAux]
  | e :: rest, used => by
    simp only [validateAux]
    by_cases h1 : e.id < kMinId ∨ kMaxId < e.id
    · simp only [if_pos h1]
      constructor
      · intro hf; cases hf
      · rintro ⟨hr, _, _⟩
        have := hr e (List.mem_cons_self e rest)
        omega
    · simp only [if_neg h1]
      by_cases h2 : e.id ∈ used
      · simp only [if_pos h2]
        constructor
        · intro hf; cases hf
        · rintro ⟨_, _, hnu⟩
          exact absurd h2 (hnu e (List.mem_cons_self e rest))
      · simp only [if_neg h2]
        rw [validateAux_eq_true_iff rest (e.id :: used)]
        constructor
        · rintro ⟨hr, hnd, hnu⟩
          refine ⟨?_, ?_, ?_⟩
          · intro x hx
            rcases List.mem_cons.mp hx with hx2 | hx2
            · rw [hx2]; omega
            · exact hr x hx2
          · rw [List.map_cons, List.nodup_cons]
            refine ⟨?_, hnd⟩
            intro hmem
            rcases List.mem_map.mp hmem with ⟨x, hx, hid⟩
            exact (hnu x hx) (by rw [hid]; exact List.mem_cons_self _ _)
          · intro x hx hxu
            rcases List.mem_cons.mp hx with hxe | hxr
            · rw [hxe] at hxu
              exact h2 hxu
            · exact (hnu x hxr) (List.mem_cons_of_mem _ hxu)
        · rintro ⟨hr, hnd, hnu⟩
          rw [List.map_cons, List.nodup_cons] at hnd
          refine ⟨fun x hx => hr x (List.mem_cons_of_mem e hx), hnd.2, ?_⟩
          intro x hx hxin
          rcases List.mem_cons.mp hxin with hxe | hxu
          · exact hnd.1 (List.mem_map.mpr ⟨x, hx, hxe⟩)
          · exact (hnu x (List.mem_cons_of_mem e hx)) hxu

theorem incoming_from_none : ∀ (batch : List PacketResult),
    IncomingPacketFeedbackVector ⟨none⟩ batch =
      (⟨none⟩, batch.map
        (fun p => EstimatorCall.update p.receive_time p.payload_size p.in_alr))
  | [] => rfl
  | p :: rest => by
    have hp : processPacket ⟨none⟩ p =
        (⟨none⟩,
         [EstimatorCall.update p.receive_time p.payload_size p.in_alr]) := rfl
    simp only [IncomingPacketFeedbackVector, hp]
    rw [incoming_from_none rest]
    rfl

/-! ### Pipeline-level consequences -/

theorem FilterRtpExtensions_mem_supported (toggle : Bool)
    (l : List RtpExtension) (sup : String → Bool) (fr : Bool) :
    ∀ e ∈ FilterRtpExtensions toggle l sup fr, sup e.uri = true := by
  intro e he
  have h1 : e ∈ List.insertionSort extLe (l.filter (fun e => sup e.uri)) :=
    (FilterRtpExtensions_sublist_sorted toggle l sup fr).subset he
  have h2 : e ∈ l.filter (fun e => sup e.uri) :=
    (List.perm_insertionSort extLe _).mem_iff.mp h1
  exact (List.mem_filter.mp h2).2

theorem FilterRtpExtensions_groupCount_le_one (toggle : Bool)
    (l : List RtpExtension) (sup : String → Bool)
    (hc : ∀ u ∈ bwePriorities toggle, uriCount u l ≤ 1) :
    groupCount (bwePriorities toggle)
      (FilterRtpExtensions toggle l sup true) ≤ 1 := by
  have hpre : ∀ u ∈ bwePriorities toggle,
      uriCount u (uniq (List.insertionSort extLe
        (l.filter (fun e => sup e.uri)))) ≤ 1 := by
    intro u hu
    have h1 : uriCount u (uniq (List.insertionSort extLe
        (l.filter (fun e => sup e.uri)))) ≤
        uriCount u (List.insertionSort extLe
          (l.filter (fun e => sup e.uri))) :=
      uriCount_le_of_sublist (uniq_sublist _) u
    have h2 : uriCount u (List.insertionSort extLe
        (l.filter (fun e => sup e.uri))) =
        uriCount u (l.filter (fun e => sup e.uri)) :=
      (List.perm_insertionSort extLe _).countP_eq _
    have h3 : uriCount u (l.filter (fun e => sup e.uri)) ≤ uriCount u l :=
      uriCount_le_of_sublist (List.filter_sublist l) u
    have := hc u hu
    omega
  show groupCount (bwePriorities toggle)
      (DiscardRedundantExtensions (bwePriorities toggle)
        (uniq (List.insertionSort extLe
          (l.filter (fun e => sup e.uri))))) ≤ 1
  exact discard_fold_false_groupCount_le_one _ _ hpre

theorem FilterRtpExtensions_idem_of_uriCounts (toggle : Bool)
    (l : List RtpExtension) (sup : String → Bool)
    (hc : ∀ u ∈ bwePriorities toggle, uriCount u l ≤ 1) :
    FilterRtpExtensions toggle (FilterRtpExtensions toggle l sup true) sup
      true = FilterRtpExtensions toggle l sup true := by
  have hfil : (FilterRtpExtensions toggle l sup true).filter
      (fun e => sup e.uri) = FilterRtpExtensions toggle l sup true :=
    List.filter_eq_self.mpr (FilterRtpExtensions_mem_supported toggle l sup true)
  have hsort : List.insertionSort extLe (FilterRtpExtensions toggle l sup true) =
      FilterRtpExtensions toggle l sup true :=
    (FilterRtpExtensions_sorted toggle l sup true).insertionSort_eq
  have hpair : (FilterRtpExtensions toggle l sup true).Pairwise
      (fun x y => ¬ extEqualKey x y) := by
    have hu : (uniq (List.insertionSort extLe
        (l.filter (fun e => sup e.uri)))).Pairwise
        (fun x y => ¬ extEqualKey x y) :=
      uniq_pairwise_of_sorted _ (List.sorted_insertionSort extLe _)
    have hsub : FilterRtpExtensions toggle l sup true <+
        uniq (List.insertionSort extLe (l.filter (fun e => sup e.uri))) :=
      DiscardRedundantExtensions_sublist _ _
    exact List.Pairwise.sublist hsub hu
  have huniq : uniq (FilterRtpExtensions toggle l sup true) =
      FilterRtpExtensions toggle l sup true := uniq_eq_self _ hpair
  have hgc : groupCount (bwePriorities toggle)
      (FilterRtpExtensions toggle l sup true) ≤ 1 :=
    FilterRtpExtensions_groupCount_le_one toggle l sup hc
  have hnodup : (bwePriorities toggle).Nodup := by
    cases toggle <;> decide
  show DiscardRedundantExtensions (bwePriorities toggle)
      (uniq (List.insertionSort extLe
        ((FilterRtpExtensions toggle l sup true).filter
          (fun e => sup e.uri)))) =
      FilterRtpExtensions toggle l sup true
  rw [hfil, hsort, huniq]
  exact discard_fold_fix _ _ hnodup hgc

theorem FilterRtpExtensions_perm_eq (toggle : Bool)
    (l l2 : List RtpExtension) (sup : String → Bool) (fr : Bool)
    (hperm : l.Perm l2)
    (hkeys : l.Pairwise (fun a b => ¬ extEqualKey a b)) :
    FilterRtpExtensions toggle l2 sup fr =
      FilterRtpExtensions toggle l sup fr := by
  have hfp : (l.filter (fun e => sup e.uri)).Perm
      (l2.filter (fun e => sup e.uri)) := hperm.filter _
  have hkey1 : (l.filter (fun e => sup e.uri)).Pairwise
      (fun a b => ¬ extEqualKey a b) :=
    List.Pairwise.sublist (List.filter_sublist l) hkeys
  have hsymm : Symmetric (fun a b : RtpExtension => ¬ extEqualKey a b) :=
    fun a b h hk => h (extEqualKey_symm hk)
  have hkey2 : (List.insertionSort extLe
      (l2.filter (fun e => sup e.uri))).Pairwise
      (fun a b => ¬ extEqualKey a b) := by
    have hchain : (List.insertionSort extLe
        (l2.filter (fun e => sup e.uri))).Perm (l.filter (fun e => sup e.uri)) :=
      ((List.perm_insertionSort extLe _).trans hfp.symm)
    exact (hchain.pairwise_iff (fun h hk => h (extEqualKey_symm hk))).mpr hkey1
  have hsorteq : List.insertionSort extLe (l2.filter (fun e => sup e.uri)) =
      List.insertionSort extLe (l.filter (fun e => sup e.uri)) := by
    apply sorted_perm_eq_of_pairwise_keys
    · exact (List.perm_insertionSort extLe _).trans
        (hfp.symm.trans (List.perm_insertionSort extLe _).symm)
    · exact List.sorted_insertionSort extLe _
    · exact List.sorted_insertionSort extLe _
    · exact hkey2
  unfold FilterRtpExtensions
  split_ifs
  · rw [hsorteq]
  · rw [hsorteq]

/-! ### Claim theorems -/

/-- The supported-URI predicate accepting exactly the three BWE timing
extension URIs. -/
def supBwe : String → Bool := fun u =>
  decide (u = kTransportSequenceNumberUri ∨ u = kAbsSendTimeUri ∨
    u = kTimestampOffsetUri)

/-- Claim C1: for every list of header extensions, `ValidateRtpExtensions`
returns `false` if and only if some extension's id is outside
`[kMinId, kMaxId]` or two extensions in the list share the same id; otherwise
it returns `true`. -/
theorem C1_validate_false_iff (l : List RtpExtension) :
    ValidateRtpExtensions l = false ↔
      ((∃ e ∈ l, e.id < kMinId ∨ kMaxId < e.id) ∨
        ¬ (l.map (fun e => e.id)).Nodup) := by
  rw [ValidateRtpExtensions, ← Bool.not_eq_true, validateAux_eq_true_iff]
  simp only [List.not_mem_nil, not_false_iff, implies_true, and_true]
  constructor
  · intro h
    by_cases hr : ∀ e ∈ l, kMinId ≤ e.id ∧ e.id ≤ kMaxId
    · right
      intro hnd
      exact h ⟨hr, hnd⟩
    · left
      push_neg at hr
      obtain ⟨e, he, hout⟩ := hr
      refine ⟨e, he, ?_⟩
      by_cases h1 : kMinId ≤ e.id
      · have := hout h1
        omega
      · omega
  · rintro (⟨e, he, hout⟩ | hnd) ⟨hr, hnd2⟩
    · have := hr e he
      omega
    · exact hnd hnd2

/-- Claim C2: for the candidate set {transport-sequence-number (id 3),
absolute-send-time (id 2), timestamp-offset (id 1)}, all three URIs supported,
toggle off, `filter_redundant = true`, `FilterRtpExtensions` returns exactly
the single transport-sequence-number extension. -/
theorem C2_priority_tie_break_toggle_off :
    FilterRtpExtensions false
      [⟨3, kTransportSequenceNumberUri, false⟩,
       ⟨2, kAbsSendTimeUri, false⟩,
       ⟨1, kTimestampOffsetUri, false⟩] supBwe true =
      [⟨3, kTransportSequenceNumberUri, false⟩] := by
  decide

/-- Claim C3: same input as C2 but toggle on: transport-sequence-number is not
in the priority group, and {absolute-send-time, timestamp-offset} collapses to
absolute-send-time, so the result is exactly {transport-sequence-number,
absolute-send-time}. -/
theorem C3_priority_tie_break_toggle_on :
    FilterRtpExtensions true
      [⟨3, kTransportSequenceNumberUri, false⟩,
       ⟨2, kAbsSendTimeUri, false⟩,
       ⟨1, kTimestampOffsetUri, false⟩] supBwe true =
      [⟨3, kTransportSequenceNumberUri, false⟩,
       ⟨2, kAbsSendTimeUri, false⟩] := by
  decide

/-- Counterexample to claim C4 as stated: the two lists below are permutations
of each other, pass validation, yet `FilterRtpExtensions` maps them to
different outputs, because they contain two entries with the same
`(uri, encrypted)` pair and the comparator cannot order such ties. -/
theorem C4_counterexample :
    ValidateRtpExtensions
      [⟨1, "a", false⟩, ⟨2, "a", false⟩] = true ∧
    ([⟨2, "a", false⟩, ⟨1, "a", false⟩] : List RtpExtension).Perm
      [⟨1, "a", false⟩, ⟨2, "a", false⟩] ∧
    FilterRtpExtensions false [⟨2, "a", false⟩, ⟨1, "a", false⟩]
        (fun _ => true) true ≠
      FilterRtpExtensions false [⟨1, "a", false⟩, ⟨2, "a", false⟩]
        (fun _ => true) true :=
  ⟨by decide, List.Perm.swap _ _ _, by decide⟩

/-- Claim C4 (amended): `FilterRtpExtensions` is deterministic (it is a pure
function of its explicit inputs), and — provided no two candidates share the
same `(uri, encrypted)` pair — its output is invariant under permutation of
the validated input list. -/
theorem C4_filter_order_invariant_amended (toggle : Bool)
    (l l2 : List RtpExtension) (sup : String → Bool) (fr : Bool)
    (hval : ValidateRtpExtensions l = true)
    (hperm : l.Perm l2)
    (hkeys : l.Pairwise (fun a b => ¬ extEqualKey a b)) :
    FilterRtpExtensions toggle l2 sup fr =
      FilterRtpExtensions toggle l sup fr :=
  FilterRtpExtensions_perm_eq toggle l l2 sup fr hperm hkeys

/-- Witness for C4 (amended) at a concrete input. -/
theorem C4_witness :
    FilterRtpExtensions false [⟨2, "b", false⟩, ⟨1, "a", false⟩]
        (fun _ => true) true =
      FilterRtpExtensions false [⟨1, "a", false⟩, ⟨2, "b", false⟩]
        (fun _ => true) true :=
  C4_filter_order_invariant_amended false
    [⟨1, "a", false⟩, ⟨2, "b", false⟩] [⟨2, "b", false⟩, ⟨1, "a", false⟩]
    (fun _ => true) true (by decide) (List.Perm.swap _ _ _) (by decide)

/-- Counterexample to claim C5 as stated: filtering this validated list twice
with the same parameters does not reproduce the first result — the first pass
keeps an encrypted absolute-send-time entry plus an unencrypted
timestamp-offset entry (the erase step removes only the first
timestamp-offset occurrence), and the second pass then erases the survivor. -/
theorem C5_counterexample :
    ValidateRtpExtensions
      [⟨1, kAbsSendTimeUri, true⟩, ⟨2, kTimestampOffsetUri, false⟩,
       ⟨3, kTimestampOffsetUri, true⟩] = true ∧
    FilterRtpExtensions true
        (FilterRtpExtensions true
          [⟨1, kAbsSendTimeUri, true⟩, ⟨2, kTimestampOffsetUri, false⟩,
           ⟨3, kTimestampOffsetUri, true⟩] (fun _ => true) true)
        (fun _ => true) true ≠
      FilterRtpExtensions true
        [⟨1, kAbsSendTimeUri, true⟩, ⟨2, kTimestampOffsetUri, false⟩,
         ⟨3, kTimestampOffsetUri, true⟩] (fun _ => true) true :=
  ⟨by decide, by decide⟩

/-- Claim C5 (amended): provided each URI of the active mutual-exclusion
priority group occurs at most once among the candidates, filtering an
already-filtered (`filter_redundant = true`) result again with the same
parameters yields an identical list. -/
theorem C5_filter_idempotent_amended (toggle : Bool)
    (l : List RtpExtension) (sup : String → Bool)
    (hval : ValidateRtpExtensions l = true)
    (hone : ∀ u ∈ bwePriorities toggle, uriCount u l ≤ 1) :
    FilterRtpExtensions toggle (FilterRtpExtensions toggle l sup true) sup
        true =
      FilterRtpExtensions toggle l sup true :=
  FilterRtpExtensions_idem_of_uriCounts toggle l sup hone

/-- Witness for C5 (amended) at a concrete input. -/
theorem C5_witness :
    FilterRtpExtensions false
        (FilterRtpExtensions false
          [⟨3, kTransportSequenceNumberUri, false⟩,
           ⟨2, kAbsSendTimeUri, false⟩,
           ⟨1, kTimestampOffsetUri, false⟩] supBwe true) supBwe true =
      FilterRtpExtensions false
        [⟨3, kTransportSequenceNumberUri, false⟩,
         ⟨2, kAbsSendTimeUri, false⟩,
         ⟨1, kTimestampOffsetUri, false⟩] supBwe true :=
  C5_filter_idempotent_amended false
    [⟨3, kTransportSequenceNumberUri, false⟩,
     ⟨2, kAbsSendTimeUri, false⟩,
     ⟨1, kTimestampOffsetUri, false⟩] supBwe (by decide) (by decide)

/-- Counterexample to claim C6 as stated: a validated input carrying the
absolute-send-time URI both encrypted and unencrypted leaves two entries of
the active priority group in the filtered result, because the erase step of
`DiscardRedundantExtensions` removes at most one entry per group URI and the
`(uri, encrypted)` deduplication does not merge them. -/
theorem C6_counterexample :
    ValidateRtpExtensions
      [⟨1, kAbsSendTimeUri, true⟩, ⟨2, kAbsSendTimeUri, false⟩] = true ∧
    groupCount (bwePriorities false)
      (FilterRtpExtensions false
        [⟨1, kAbsSendTimeUri, true⟩, ⟨2, kAbsSendTimeUri, false⟩]
        (fun _ => true) true) = 2 :=
  ⟨by decide, by decide⟩

/-- Claim C6 (amended): provided each URI of the active priority group occurs
at most once among the candidates, the filtered (`filter_redundant = true`)
result contains at most one entry whose URI belongs to the active group
(toggle on: {absolute-send-time, timestamp-offset}; toggle off:
{transport-sequence-number, absolute-send-time, timestamp-offset}). -/
theorem C6_group_exclusive_amended (toggle : Bool)
    (l : List RtpExtension) (sup : String → Bool)
    (hval : ValidateRtpExtensions l = true)
    (hone : ∀ u ∈ bwePriorities toggle, uriCount u l ≤ 1) :
    groupCount (bwePriorities toggle)
      (FilterRtpExtensions toggle l sup true) ≤ 1 :=
  FilterRtpExtensions_groupCount_le_one toggle l sup hone

/-- Witness for C6 (amended) at a concrete input. -/
theorem C6_witness :
    groupCount (bwePriorities true)
      (FilterRtpExtensions true
        [⟨3, kTransportSequenceNumberUri, false⟩,
         ⟨2, kAbsSendTimeUri, false⟩,
         ⟨1, kTimestampOffsetUri, false⟩] supBwe true) ≤ 1 :=
  C6_group_exclusive_amended true
    [⟨3, kTransportSequenceNumberUri, false⟩,
     ⟨2, kAbsSendTimeUri, false⟩,
     ⟨1, kTimestampOffsetUri, false⟩] supBwe (by decide) (by decide)

/-- Claim C7: for every validated input, the list returned by
`FilterRtpExtensions` is sorted so that every encrypted entry precedes every
unencrypted entry, and entries with the same encryption state appear in
ascending lexicographic order of `uri`. -/
theorem C7_filter_sorted (toggle : Bool) (l : List RtpExtension)
    (sup : String → Bool) (fr : Bool)
    (hval : ValidateRtpExtensions l = true) :
    (FilterRtpExtensions toggle l sup fr).Pairwise
      (fun a b => (a.encrypt = true ∧ b.encrypt = false) ∨
        (a.encrypt = b.encrypt ∧ strLt b.uri.data a.uri.data = false)) := by
  refine List.Pairwise.imp ?_ (FilterRtpExtensions_sorted toggle l sup fr)
  intro a b hle
  unfold extLe extCompLt at hle
  by_cases he : a.encrypt = b.encrypt
  · right
    refine ⟨he, ?_⟩
    rw [if_pos he.symm] at hle
    exact (Bool.not_eq_true _).mp hle
  · left
    rw [if_neg (fun hh => he hh.symm)] at hle
    cases ha : a.encrypt <;> cases hb : b.encrypt <;> simp_all

/-- Witness for C7 at a concrete input. -/
theorem C7_witness :
    (FilterRtpExtensions false [⟨1, "b", false⟩, ⟨2, "a", true⟩]
        (fun _ => true) false).Pairwise
      (fun a b => (a.encrypt = true ∧ b.encrypt = false) ∨
        (a.encrypt = b.encrypt ∧ strLt b.uri.data a.uri.data = false)) :=
  C7_filter_sorted false [⟨1, "b", false⟩, ⟨2, "a", true⟩]
    (fun _ => true) false (by decide)

/-- Claim C8: with the marker armed at `t = 11` and a batch with receive
times 10 then 20, the tracker emits exactly `update(10)`, then
`expect_fast_rate_change()` immediately followed by `update(20)`; afterwards
the marker is cleared, and from the cleared state no batch ever emits another
`expect_fast_rate_change()` call until `SetAlrEndedTime` is called again. -/
theorem C8_alr_one_shot :
    IncomingPacketFeedbackVector (SetAlrEndedTime 11 ⟨none⟩)
        [⟨10, 10, false⟩, ⟨20, 20, false⟩] =
      (⟨none⟩,
       [EstimatorCall.update 10 10 false,
        EstimatorCall.expectFastRateChange,
        EstimatorCall.update 20 20 false]) ∧
    ∀ batch : List PacketResult,
      EstimatorCall.expectFastRateChange ∉
        (IncomingPacketFeedbackVector ⟨none⟩ batch).2 := by
  constructor
  · decide
  · intro batch
    rw [incoming_from_none]
    simp

/-- Claim C9: from the Idle state (no armed marker), a batch of two records
with receive times 10 and 20 produces exactly two `update` calls, in batch
order, each passing that record's receive time, payload size and `in_alr`
flag unchanged, and no `expect_fast_rate_change` call. -/
theorem C9_batch_delegation (s1 s2 : Nat) (a1 a2 : Bool) :
    IncomingPacketFeedbackVector ⟨none⟩
        [⟨10, s1, a1⟩, ⟨20, s2, a2⟩] =
      (⟨none⟩,
       [EstimatorCall.update 10 s1 a1, EstimatorCall.update 20 s2 a2]) := by
  rw [incoming_from_none]
  rfl

/-- Claim C10: `GetBitrateConfigForCodec` returns `min_bitrate_bps` equal to
1000 times the min-bitrate parameter when present and positive and `0`
otherwise, and `start_bitrate_bps` / `max_bitrate_bps` equal to 1000 times
the corresponding parameter when present and positive and `-1` otherwise. -/
theorem C10_bitrate_config (codec : Codec) :
    ((∀ k : Int, codec.GetParam kCodecParamMinBitrate = some k → 0 < k →
        (GetBitrateConfigForCodec codec).min_bitrate_bps = k * 1000) ∧
     (codec.GetParam kCodecParamMinBitrate = none →
        (GetBitrateConfigForCodec codec).min_bitrate_bps = 0) ∧
     (∀ k : Int, codec.GetParam kCodecParamMinBitrate = some k → k ≤ 0 →
        (GetBitrateConfigForCodec codec).min_bitrate_bps = 0)) ∧
    ((∀ k : Int, codec.GetParam kCodecParamStartBitrate = some k → 0 < k →
        (GetBitrateConfigForCodec codec).start_bitrate_bps = k * 1000) ∧
     (codec.GetParam kCodecParamStartBitrate = none →
        (GetBitrateConfigForCodec codec).start_bitrate_bps = -1) ∧
     (∀ k : Int, codec.GetParam kCodecParamStartBitrate = some k → k ≤ 0 →
        (GetBitrateConfigForCodec codec).start_bitrate_bps = -1)) ∧
    ((∀ k : Int, codec.GetParam kCodecParamMaxBitrate = some k → 0 < k →
        (GetBitrateConfigForCodec codec).max_bitrate_bps = k * 1000) ∧
     (codec.GetParam kCodecParamMaxBitrate = none →
        (GetBitrateConfigForCodec codec).max_bitrate_bps = -1) ∧
     (∀ k : Int, codec.GetParam kCodecParamMaxBitrate = some k → k ≤ 0 →
        (GetBitrateConfigForCodec codec).max_bitrate_bps = -1)) := by
  refine ⟨⟨?_, ?_, ?_⟩, ⟨?_, ?_, ?_⟩, ⟨?_, ?_, ?_⟩⟩
  · intro k hk hpos
    simp [GetBitrateConfigForCodec, hk, hpos]
  · intro hk
    simp [GetBitrateConfigForCodec, hk]
  · intro k hk hneg
    simp [GetBitrateConfigForCodec, hk, not_lt.mpr hneg]
  · intro k hk hpos
    simp [GetBitrateConfigForCodec, hk, hpos]
  · intro hk
    simp [GetBitrateConfigForCodec, hk]
  · intro k hk hneg
    simp [GetBitrateConfigForCodec, hk, not_lt.mpr hneg]
  · intro k hk hpos
    simp [GetBitrateConfigForCodec, hk, hpos]
  · intro hk
    simp [GetBitrateConfigForCodec, hk]
  · intro k hk hneg
    simp [GetBitrateConfigForCodec, hk, not_lt.mpr hneg]

/-- Witness for C10 at a concrete codec: min-bitrate 5 (positive), start
bitrate -2 (nonpositive), max bitrate absent. -/
theorem C10_witness :
    (GetBitrateConfigForCodec
      ⟨[(kCodecParamMinBitrate, 5), (kCodecParamStartBitrate, -2)]⟩
      ).min_bitrate_bps = 5 * 1000 ∧
    (GetBitrateConfigForCodec
      ⟨[(kCodecParamMinBitrate, 5), (kCodecParamStartBitrate, -2)]⟩
      ).start_bitrate_bps = -1 ∧
    (GetBitrateConfigForCodec
      ⟨[(kCodecParamMinBitrate, 5), (kCodecParamStartBitrate, -2)]⟩
      ).max_bitrate_bps = -1 :=
  ⟨(C10_bitrate_config _).1.1 5 (by decide) (by decide),
   (C10_bitrate_config _).2.1.2.2 (-2) (by decide) (by decide),
   (C10_bitrate_config _).2.2.2.1 (by decide)⟩
